import Mathlib

/-!
# Port scanner (`portscan.go`): port-set parser, connection prober, scan engine

A shallow embedding of `parsePorts`, `scanPort` and the scan section of `main`.

* Go strings are modelled as lists of characters.  The only bytes the parser
  inspects are the ASCII characters `,`, `-`, `+` and `0`..`9`, so splitting and
  digit recognition agree on characters and on UTF-8 bytes.
* Go's `int` is taken at 64 bits (`intSize`); arithmetic on it is `Int` with
  explicit wrap-around (`incWrap`).
* A Go result pair `([]int, error)` is a Lean pair `List Int × Option PortError`,
  the `nil` slice being `[]`.
* Loops that the source does not bound carry a fuel argument; `none` is "has
  not returned within the fuel".
-/

namespace PortScan

/-! ## Machine integers -/

/-- Width of Go's `int` on the modelled platform. -/
def intSize : Nat := 64

/-- Largest value of Go's `int`. -/
def maxInt : Int := 2 ^ (intSize - 1) - 1

/-- Smallest value of Go's `int`. -/
def minInt : Int := -(2 ^ (intSize - 1))

/-- Go's `i++` on an `int`: two's-complement wrap-around at `maxInt`. -/
def incWrap (i : Int) : Int := if i = maxInt then minInt else i + 1

/-! ## `strings.Contains`, `strings.Split` (single-character separator) -/

/-- Go's `strings.Contains(s, sep)` for a one-character `sep`. -/
def Contains (s : List Char) (sep : Char) : Bool := s.elem sep

/-- Go's `strings.Split(s, sep)` for a one-character `sep`: the pieces of `s`
between consecutive occurrences of `sep`; `n` occurrences give `n + 1` pieces
and the empty string gives one empty piece. -/
def Split : List Char → Char → List (List Char)
  | [], _ => [[]]
  | c :: cs, sep =>
    if c = sep then [] :: Split cs sep
    else
      match Split cs sep with
      | [] => [[c]]
      | t :: ts => (c :: t) :: ts

/-! ## `strconv.Atoi` -/

/-- Digit loop of `strconv.ParseUint` in base 10, without the overflow cut-off
(the range check is made by the caller on the exact value): `none` as soon as a
character is not an ASCII digit. -/
def parseDigits : List Char → Nat → Option Nat
  | [], n => some n
  | c :: cs, n =>
    if c.isDigit then parseDigits cs (n * 10 + (c.toNat - '0'.toNat)) else none

/-- Go's `strconv.Atoi`: an optional sign, then one or more ASCII digits, the
value within the range of `int`; `none` stands for any error (syntax or range). -/
def Atoi (s : List Char) : Option Int :=
  match s with
  | [] => none
  | c :: cs =>
    if c = '-' then
      if cs = [] then none
      else
        match parseDigits cs 0 with
        | none => none
        | some n => if -(n : Int) < minInt then none else some (-(n : Int))
    else if c = '+' then
      if cs = [] then none
      else
        match parseDigits cs 0 with
        | none => none
        | some n => if maxInt < (n : Int) then none else some (n : Int)
    else
      match parseDigits (c :: cs) 0 with
      | none => none
      | some n => if maxInt < (n : Int) then none else some (n : Int)

/-! ## `parsePorts` -/

/-- The two errors `parsePorts` builds with `fmt.Errorf`, each carrying the text
substituted for `%s`. -/
inductive PortError where
  /-- The error "无效的端口范围: %s" (invalid port range). -/
  | invalidRange (r : List Char)
  /-- The error "无效的端口号: %s" (invalid port number). -/
  | invalidPortNumber (text : List Char)
  deriving DecidableEq, Repr

/-- The message of the error value, as `fmt.Errorf` formats it. -/
def PortError.message : PortError → String
  | .invalidRange r => "无效的端口范围: " ++ String.mk r
  | .invalidPortNumber t => "无效的端口号: " ++ String.mk t

/-- The loop `for i := start; i <= end; i++ { ports = append(ports, i) }`:
`none` when the fuel runs out before the loop exits. -/
def rangeLoop : Nat → Int → Int → List Int → Option (List Int)
  | 0, _, _, _ => none
  | fuel + 1, i, e, ports =>
    if i ≤ e then rangeLoop fuel (incWrap i) e (ports ++ [i]) else some ports

/-- The loop `for _, r := range ranges { ... }` of `parsePorts` with the
accumulator `ports`; each error exit returns `nil` together with the error. -/
def parseLoop (fuel : Nat) : List (List Char) → List Int →
    Option (List Int × Option PortError)
  | [], ports => some (ports, none)
  | r :: rest, ports =>
    if Contains r '-' then
      match Split r '-' with
      | [p0, p1] =>
        match Atoi p0 with
        | none => some ([], some (.invalidPortNumber p0))
        | some start =>
          match Atoi p1 with
          | none => some ([], some (.invalidPortNumber p1))
          | some e =>
            match rangeLoop fuel start e ports with
            | none => none
            | some ports1 => parseLoop fuel rest ports1
      | _ => some ([], some (.invalidRange r))
    else
      match Atoi r with
      | none => some ([], some (.invalidPortNumber r))
      | some port => parseLoop fuel rest (ports ++ [port])

/-- The function `parsePorts(portsFlag string) ([]int, error)`. -/
def parsePorts (fuel : Nat) (portsFlag : String) :
    Option (List Int × Option PortError) :=
  parseLoop fuel (Split portsFlag.toList ',') []

/-! ## The grammar of port specifications, as the specification words it -/

/-- An integer literal: one or more ASCII digits. -/
def isLiteral (l : List Char) : Bool := !l.isEmpty && l.all Char.isDigit

/-- Decimal value of a digit string read after the value `n`. -/
def digitsVal : List Char → Nat → Nat
  | [], n => n
  | c :: cs, n => digitsVal cs (n * 10 + (c.toNat - '0'.toNat))

/-- Decimal value of an integer literal. -/
def litVal (l : List Char) : Nat := digitsVal l 0

/-- A token of the specification: a single integer literal, or two integer
literals joined by one `-`. -/
inductive Token where
  | single (lit : List Char)
  | range (a b : List Char)
  deriving DecidableEq, Repr

/-- The text of a token as it stands in the specification string. -/
def Token.text : Token → List Char
  | .single l => l
  | .range a b => a ++ '-' :: b

/-- The tokens are made of integer literals (no condition on their size). -/
def Token.isGrammatical : Token → Bool
  | .single l => isLiteral l
  | .range a b => isLiteral a && isLiteral b

/-- The literal expansion of a token: `[n]` for a single literal `n`, and
`a, a+1, ..., b` for a range (nothing when `a > b`). -/
def Token.expand : Token → List Int
  | .single l => [(litVal l : Int)]
  | .range a b => (List.range (litVal b + 1 - litVal a)).map fun (j : Nat) => (litVal a : Int) + (j : Int)

/-- The expanded length of a token: 1 for a single literal, `b - a + 1` for a
range with `a ≤ b`, 0 for a range with `a > b`. -/
def Token.expandedLength : Token → Nat
  | .single _ => 1
  | .range a b => if litVal a ≤ litVal b then litVal b - litVal a + 1 else 0

/-- A token the parser expands: its literals fit Go's `int`, and the end of a
range lies below `maxInt`. -/
def Token.wellFormed : Token → Bool
  | .single l => isLiteral l && decide ((litVal l : Int) ≤ maxInt)
  | .range a b =>
    isLiteral a && isLiteral b && decide ((litVal a : Int) ≤ maxInt) &&
      decide ((litVal b : Int) < maxInt)

/-- Iterations of the range loop that a token takes, plus one. -/
def Token.fuelNeeded : Token → Nat
  | .single _ => 0
  | .range a b => (litVal b + 1 - litVal a) + 1

/-- The concatenation, in token order, of the literal expansions of the tokens. -/
def expandAll : List Token → List Int
  | [] => []
  | t :: ts => t.expand ++ expandAll ts

/-- Fuel that suffices for every token of a list. -/
def fuelFor (toks : List Token) : Nat := (toks.map Token.fuelNeeded).sum

/-- The specification string made of the given token texts, separated by commas. -/
def joinTokens : List (List Char) → List Char
  | [] => []
  | [t] => t
  | t :: u :: ts => t ++ ',' :: joinTokens (u :: ts)

/-- The character of a decimal digit. -/
def digitChar (d : Nat) : Char := Char.ofNat (d + '0'.toNat)

/-- The decimal digits of `n`, most significant first (the fuel bounds the
number of digits). -/
def decimalDigits : Nat → Nat → List Char
  | 0, _ => []
  | fuel + 1, n =>
    if n < 10 then [digitChar n] else decimalDigits fuel (n / 10) ++ [digitChar (n % 10)]

/-- The decimal text of a natural number. -/
def decimalText (n : Nat) : List Char := decimalDigits (n + 1) n

/-- The decimal text of an integer: a `-` sign before the text of a negative one. -/
def intText : Int → List Char
  | .ofNat n => decimalText n
  | .negSucc n => '-' :: decimalText (n + 1)

/-! ## `scanPort`: the effects of one probe task -/

/-- What one call of `scanPort` does to the outside, in program order. -/
inductive Effect where
  /-- The call `net.DialTimeout("tcp", address, timeout)` for the port. -/
  | dial (port : Int)
  /-- The progress line "[.] Port %d closed" of the verbose mode. -/
  | printClosed (port : Int)
  /-- The call `conn.Close()`. -/
  | connClose
  /-- The send `results <- port`. -/
  | send (port : Int)
  /-- The deferred `wg.Done()`. -/
  | wgDone
  deriving DecidableEq, Repr

/-- The function `scanPort(ctx, target, port, wg, results)`, as the sequence of
its effects in a run that returns.  `cancelled` is what the `select` on
`ctx.Done()` finds, `dialOk` whether `net.DialTimeout` returns no error, and
`verbose` the flag of that name.  The deferred `wg.Done()` runs last on every
return path. -/
def scanPort (cancelled dialOk verbose : Bool) (port : Int) : List Effect :=
  (if cancelled then []
   else if !dialOk then
     if verbose then [.dial port, .printClosed port] else [.dial port]
   else [.dial port, .connClose, .send port]) ++ [.wgDone]

/-- The values written to the open-result stream by a trace. -/
def sentPorts : List Effect → List Int
  | [] => []
  | .send p :: es => p :: sentPorts es
  | _ :: es => sentPorts es

/-- The ports for which a trace attempts a connection. -/
def dialledPorts : List Effect → List Int
  | [] => []
  | .dial p :: es => p :: dialledPorts es
  | _ :: es => dialledPorts es

/-! ## The scan engine of `main`: goroutines as an interleaving of atomic steps -/

/-- The inputs of one scan: the parsed port list, the flag `threads` (capacity of
the channel `pool`) and, for each port, whether the dial to it succeeds. -/
structure Config where
  ports : List Int
  threads : Nat
  isOpen : Int → Bool

/-- Where the main goroutine stands, from the dispatch loop to the final report. -/
inductive MainPc where
  /-- At the head of `for _, port := range portList`, before `pool <- struct{}{}`. -/
  | dispatch
  /-- Slot acquired for the port, before `wg.Add(1)`. -/
  | add (port : Int)
  /-- Before the `go func(p int) {...}(port)` statement. -/
  | spawn (port : Int)
  /-- At `wg.Wait()`. -/
  | wait
  /-- Before `close(results)`. -/
  | closeResults
  /-- Before `close(pool)`. -/
  | closePool
  /-- Before the final `fmt.Printf` that reads `len(openPorts)`. -/
  | report
  /-- After the report. -/
  | done
  deriving DecidableEq, Repr

/-- Where a probe goroutine stands. -/
inductive TaskPc where
  /-- At the `select` on `ctx.Done()`. -/
  | check
  /-- At `net.DialTimeout`. -/
  | dial
  /-- At `results <- port`. -/
  | send
  /-- At the deferred `wg.Done()` of `scanPort`. -/
  | wgDone
  /-- At the deferred `<-pool` of the goroutine's closure. -/
  | release
  deriving DecidableEq, Repr

/-- A probe goroutine that has been started and has not yet released its slot. -/
structure Task where
  port : Int
  pc : TaskPc
  deriving DecidableEq, Repr

/-- Where the collector goroutine stands. -/
inductive CollPc where
  /-- At the receive of `for port := range results`. -/
  | recv
  /-- Holding a received port, before `openPorts = append(openPorts, port)`. -/
  | append (port : Int)
  /-- After the loop, the stream being closed. -/
  | exited
  deriving DecidableEq, Repr

/-- The shared state of one scan. -/
structure State where
  /-- Ports of `portList` the dispatch loop has not reached yet. -/
  pending : List Int
  mainPc : MainPc
  /-- Whether `ctx` is cancelled. -/
  cancelled : Bool
  /-- The number of elements in the buffer of `pool`. -/
  pool : Nat
  poolClosed : Bool
  /-- The counter of the wait group. -/
  wg : Nat
  tasks : List Task
  collector : CollPc
  resultsClosed : Bool
  openPorts : List Int
  /-- The count printed by the final report, once it is printed. -/
  reported : Option Nat
  deriving DecidableEq, Repr

/-- The state after `results`, `pool` and the collector goroutine are set up. -/
def State.init (cfg : Config) : State :=
  { pending := cfg.ports, mainPc := .dispatch, cancelled := false, pool := 0,
    poolClosed := false, wg := 0, tasks := [], collector := .recv,
    resultsClosed := false, openPorts := [], reported := none }

/-- One step of the main goroutine; `none` when it is blocked or has finished.
The send `pool <- struct{}{}` blocks while the buffer holds `threads` elements,
and `wg.Wait()` blocks while the counter is not zero. -/
def stepMain (cfg : Config) (s : State) : Option State :=
  match s.mainPc with
  | .dispatch =>
    match s.pending with
    | [] => some { s with mainPc := .wait }
    | p :: rest =>
      if s.pool < cfg.threads then
        some { s with pending := rest, pool := s.pool + 1, mainPc := .add p }
      else none
  | .add p => some { s with wg := s.wg + 1, mainPc := .spawn p }
  | .spawn p => some { s with tasks := s.tasks ++ [⟨p, .check⟩], mainPc := .dispatch }
  | .wait => if s.wg = 0 then some { s with mainPc := .closeResults } else none
  | .closeResults => some { s with resultsClosed := true, mainPc := .closePool }
  | .closePool => some { s with poolClosed := true, mainPc := .report }
  | .report => some { s with reported := some s.openPorts.length, mainPc := .done }
  | .done => none

/-- One step of the collector goroutine; `none` when it is blocked (a receive
with no sender is completed by the sender's step) or has finished. -/
def stepCollector (s : State) : Option State :=
  match s.collector with
  | .recv => if s.resultsClosed then some { s with collector := .exited } else none
  | .append p => some { s with openPorts := s.openPorts ++ [p], collector := .recv }
  | .exited => none

/-- One step of the probe goroutine at index `i`; `none` when there is no such
goroutine or it is blocked.  The send on the unbuffered `results` completes
only together with the collector's receive; the receive from `pool` takes one
element of the buffer, or returns at once on a closed empty channel. -/
def stepTask (cfg : Config) (s : State) (i : Nat) : Option State :=
  match s.tasks[i]? with
  | none => none
  | some t =>
    match t.pc with
    | .check =>
      some { s with tasks := s.tasks.set i ⟨t.port, if s.cancelled then .wgDone else .dial⟩ }
    | .dial =>
      some { s with tasks := s.tasks.set i ⟨t.port, if cfg.isOpen t.port then .send else .wgDone⟩ }
    | .send =>
      if s.collector = .recv ∧ s.resultsClosed = false then
        some { s with tasks := s.tasks.set i ⟨t.port, .wgDone⟩,
                      collector := .append t.port }
      else none
    | .wgDone => some { s with wg := s.wg - 1, tasks := s.tasks.set i ⟨t.port, .release⟩ }
    | .release =>
      if 0 < s.pool then some { s with pool := s.pool - 1, tasks := s.tasks.eraseIdx i }
      else if s.poolClosed then some { s with tasks := s.tasks.eraseIdx i }
      else none

/-- The goroutine the scheduler runs next. -/
inductive Action where
  | main
  | collector
  | task (i : Nat)
  deriving DecidableEq, Repr

/-- One scheduled step. -/
def step (cfg : Config) (s : State) : Action → Option State
  | .main => stepMain cfg s
  | .collector => stepCollector s
  | .task i => stepTask cfg s i

/-- The state a schedule leads to; `none` when it schedules a goroutine that
cannot move. -/
def run (cfg : Config) : State → List Action → Option State
  | s, [] => some s
  | s, a :: as =>
    match step cfg s a with
    | none => none
    | some s1 => run cfg s1 as

/-- The slots held by the main goroutine itself: one between the acquisition and
the `go` statement. -/
def MainPc.held : MainPc → Nat
  | .add _ => 1
  | .spawn _ => 1
  | _ => 0

/-- The probe tasks that have been started and have not released their slot. -/
def State.inFlight (s : State) : Nat := s.tasks.length

/-- The slot accounting of the pool: every in-flight task and the main goroutine
between acquisition and spawn hold one element of the buffer each, and the
buffer never exceeds its capacity. -/
def PoolInv (cfg : Config) (s : State) : Prop :=
  s.inFlight + s.mainPc.held = s.pool ∧ s.pool ≤ cfg.threads

/-- A scan of the ports 22 and 80 with one slot, port 80 open. -/
def sampleConfig : Config :=
  { ports := [22, 80], threads := 1, isOpen := fun p => p == 80 }

/-- The state of `sampleConfig` once the task for port 22 is spawned: the only
slot is taken and port 80 is still to be dispatched. -/
def sampleSaturated : State :=
  { pending := [80], mainPc := .dispatch, cancelled := false, pool := 1,
    poolClosed := false, wg := 1, tasks := [⟨22, .check⟩], collector := .recv,
    resultsClosed := false, openPorts := [], reported := none }

/-! ## Lemmas on splitting -/

theorem split_ne_nil (s : List Char) (sep : Char) : Split s sep ≠ [] := by
  induction s with
  | nil => simp [Split]
  | cons c cs ih =>
    unfold Split
    split
    · simp
    · split
      · simp
      · simp

theorem split_of_not_mem (s : List Char) (sep : Char) (h : sep ∉ s) :
    Split s sep = [s] := by
  induction s with
  | nil => simp [Split]
  | cons c cs ih =>
    have hc : ¬ c = sep := fun e => h (by simp [e])
    have hcs : sep ∉ cs := fun e => h (by simp [e])
    simp [Split, hc, ih hcs]

theorem split_append_sep (a rest : List Char) (sep : Char) (h : sep ∉ a) :
    Split (a ++ sep :: rest) sep = a :: Split rest sep := by
  induction a with
  | nil => simp [Split]
  | cons c cs ih =>
    have hc : ¬ c = sep := fun e => h (by simp [e])
    have hcs : sep ∉ cs := fun e => h (by simp [e])
    simp [Split, hc, ih hcs]

theorem split_joinTokens (toks : List (List Char)) (hne : toks ≠ [])
    (h : ∀ t ∈ toks, ',' ∉ t) : Split (joinTokens toks) ',' = toks := by
  induction toks with
  | nil => exact absurd rfl hne
  | cons t ts ih =>
    cases ts with
    | nil =>
      simpa [joinTokens] using split_of_not_mem t ',' (h t (by simp))
    | cons u us =>
      have ht : ',' ∉ t := h t (by simp)
      have hr : ∀ x ∈ u :: us, ',' ∉ x := fun x hx => h x (List.mem_cons_of_mem _ hx)
      rw [joinTokens, split_append_sep _ _ _ ht, ih (by simp) hr]

/-! ## Lemmas on literals and `Atoi` -/

theorem isDigit_ne_special (c : Char) (h : c.isDigit = true) :
    c ≠ '-' ∧ c ≠ '+' ∧ c ≠ ',' := by
  refine ⟨?_, ?_, ?_⟩ <;> (rintro rfl; revert h; decide)

theorem parseDigits_of_all (l : List Char) (n : Nat) (h : l.all Char.isDigit = true) :
    parseDigits l n = some (digitsVal l n) := by
  induction l generalizing n with
  | nil => rfl
  | cons c cs ih =>
    simp only [List.all_cons, Bool.and_eq_true] at h
    simp [parseDigits, digitsVal, h.1, ih _ h.2]

theorem literal_not_mem (l : List Char) (h : isLiteral l = true) :
    '-' ∉ l ∧ ',' ∉ l := by
  simp only [isLiteral, Bool.and_eq_true, List.all_eq_true] at h
  constructor
  · intro hm
    exact (isDigit_ne_special _ (h.2 _ hm)).1 rfl
  · intro hm
    exact (isDigit_ne_special _ (h.2 _ hm)).2.2 rfl

theorem atoi_literal (l : List Char) (h : isLiteral l = true) :
    Atoi l = if maxInt < (litVal l : Int) then none else some (litVal l : Int) := by
  cases l with
  | nil => simp [isLiteral] at h
  | cons c cs =>
    simp only [isLiteral, Bool.and_eq_true] at h
    have hall := h.2
    have hc : c.isDigit = true := by
      simp only [List.all_cons, Bool.and_eq_true] at hall
      exact hall.1
    obtain ⟨h1, h2, _⟩ := isDigit_ne_special c hc
    simp only [Atoi, h1, h2, if_false, parseDigits_of_all _ 0 hall, litVal]

theorem atoi_literal_fits (l : List Char) (h : isLiteral l = true)
    (hfit : (litVal l : Int) ≤ maxInt) : Atoi l = some (litVal l : Int) := by
  rw [atoi_literal l h, if_neg (not_lt.mpr hfit)]

/-! ## Lemmas on the range loop -/

theorem incWrap_of_lt (i : Int) (h : i < maxInt) : incWrap i = i + 1 := by
  simp [incWrap, ne_of_lt h]

theorem rangeLoop_empty (fuel : Nat) (i e : Int) (ports : List Int) (h : e < i) :
    rangeLoop (fuel + 1) i e ports = some ports := by
  simp [rangeLoop, not_le.mpr h]

theorem rangeLoop_eq (k : Nat) : ∀ (fuel : Nat) (i e : Int) (ports : List Int),
    e < maxInt → i + (k : Int) = e + 1 → k < fuel →
    rangeLoop fuel i e ports = some (ports ++ (List.range k).map fun (j : Nat) => i + (j : Int)) := by
  induction k with
  | zero =>
    intro fuel i e ports _ hik hf
    obtain ⟨f, rfl⟩ := Nat.exists_eq_succ_of_ne_zero (Nat.pos_iff_ne_zero.mp hf)
    have : e < i := by simp at hik; omega
    simp [rangeLoop_empty f i e ports this]
  | succ k ih =>
    intro fuel i e ports he hik hf
    obtain ⟨f, rfl⟩ := Nat.exists_eq_succ_of_ne_zero (Nat.pos_iff_ne_zero.mp (Nat.zero_lt_of_lt hf))
    have hie : i ≤ e := by push_cast at hik; omega
    have hlt : i < maxInt := lt_of_le_of_lt hie he
    rw [rangeLoop, if_pos hie, incWrap_of_lt i hlt,
      ih f (i + 1) e (ports ++ [i]) he (by push_cast at hik ⊢; omega) (by omega)]
    congr 1
    rw [List.range_succ_eq_map]
    simp only [List.map_cons, List.map_map, List.append_assoc, List.singleton_append,
      Nat.cast_zero, add_zero]
    congr 2
    apply List.map_congr_left
    intro j _
    simp only [Function.comp, Nat.cast_succ]
    ring

/-! ## Lemmas on the token loop -/

theorem contains_iff (s : List Char) (sep : Char) : Contains s sep = true ↔ sep ∈ s := by
  simp [Contains]

theorem parseLoop_single (fuel : Nat) (r : List Char) (rest : List (List Char))
    (ports : List Int) (v : Int) (hno : '-' ∉ r) (hv : Atoi r = some v) :
    parseLoop fuel (r :: rest) ports = parseLoop fuel rest (ports ++ [v]) := by
  have hc : Contains r '-' = false := by
    rw [← Bool.not_eq_true, contains_iff]; exact hno
  simp [parseLoop, hc, hv]

theorem parseLoop_range (fuel : Nat) (p0 p1 : List Char) (rest : List (List Char))
    (ports ports1 : List Int) (v0 v1 : Int) (h0 : '-' ∉ p0) (h1 : '-' ∉ p1)
    (hv0 : Atoi p0 = some v0) (hv1 : Atoi p1 = some v1)
    (hloop : rangeLoop fuel v0 v1 ports = some ports1) :
    parseLoop fuel ((p0 ++ '-' :: p1) :: rest) ports = parseLoop fuel rest ports1 := by
  have hc : Contains (p0 ++ '-' :: p1) '-' = true := by
    rw [contains_iff]; simp
  have hs : Split (p0 ++ '-' :: p1) '-' = [p0, p1] := by
    rw [split_append_sep _ _ _ h0, split_of_not_mem _ _ h1]
  simp [parseLoop, hc, hs, hv0, hv1, hloop]

theorem parseLoop_token (fuel : Nat) (t : Token) (rest : List (List Char))
    (ports : List Int) (hwf : t.wellFormed = true) (hf : t.fuelNeeded ≤ fuel) :
    parseLoop fuel (t.text :: rest) ports = parseLoop fuel rest (ports ++ t.expand) := by
  cases t with
  | single l =>
    simp only [Token.wellFormed, Bool.and_eq_true, decide_eq_true_eq] at hwf
    exact parseLoop_single fuel l rest ports _ (literal_not_mem l hwf.1).1
      (atoi_literal_fits l hwf.1 hwf.2)
  | range a b =>
    simp only [Token.wellFormed, Bool.and_eq_true, decide_eq_true_eq] at hwf
    obtain ⟨⟨⟨ha, hb⟩, hfa⟩, hfb⟩ := hwf
    simp only [Token.fuelNeeded] at hf
    refine parseLoop_range fuel a b rest ports _ _ _ (literal_not_mem a ha).1
      (literal_not_mem b hb).1 (atoi_literal_fits a ha hfa)
      (atoi_literal_fits b hb (le_of_lt hfb)) ?_
    simp only [Token.expand]
    by_cases hab : litVal a ≤ litVal b
    · exact rangeLoop_eq (litVal b + 1 - litVal a) fuel _ _ ports hfb
        (by push_cast [Nat.sub_add_cancel, show litVal a ≤ litVal b + 1 by omega]; omega)
        (by omega)
    · obtain ⟨f, rfl⟩ : ∃ f, fuel = f + 1 := ⟨fuel - 1, by omega⟩
      have h0 : litVal b + 1 - litVal a = 0 := by omega
      rw [h0]
      simpa using rangeLoop_empty f (litVal a : Int) (litVal b : Int) ports (by omega)

theorem fuelNeeded_le_fuelFor (toks : List Token) (t : Token) (h : t ∈ toks) :
    t.fuelNeeded ≤ fuelFor toks := by
  induction toks with
  | nil => simp at h
  | cons u us ih =>
    simp only [fuelFor, List.map_cons, List.sum_cons]
    rcases List.mem_cons.mp h with rfl | h
    · omega
    · have := ih h
      simp only [fuelFor] at this
      omega

theorem parseLoop_wellFormed (fuel : Nat) (pre : List Token) (rest : List (List Char))
    (ports : List Int) (hwf : ∀ t ∈ pre, t.wellFormed = true)
    (hf : ∀ t ∈ pre, t.fuelNeeded ≤ fuel) :
    parseLoop fuel (pre.map Token.text ++ rest) ports =
      parseLoop fuel rest (ports ++ expandAll pre) := by
  induction pre generalizing ports with
  | nil => simp [expandAll]
  | cons t ts ih =>
    simp only [List.map_cons, List.cons_append]
    rw [parseLoop_token fuel t _ ports (hwf t (by simp)) (hf t (by simp)),
      ih _ (fun x hx => hwf x (List.mem_cons_of_mem _ hx))
        (fun x hx => hf x (List.mem_cons_of_mem _ hx))]
    simp [expandAll]

theorem token_text_no_comma (t : Token) (hwf : t.wellFormed = true) : ',' ∉ t.text := by
  cases t with
  | single l =>
    simp only [Token.wellFormed, Bool.and_eq_true] at hwf
    exact (literal_not_mem l hwf.1).2
  | range a b =>
    simp only [Token.wellFormed, Bool.and_eq_true] at hwf
    obtain ⟨⟨⟨ha, hb⟩, _⟩, _⟩ := hwf
    have h1 := (literal_not_mem a ha).2
    have h2 := (literal_not_mem b hb).2
    simp only [Token.text, List.mem_append, List.mem_cons]
    rintro (h | h | h)
    · exact h1 h
    · exact absurd h (by decide)
    · exact h2 h

theorem parsePorts_join (fuel : Nat) (pre : List Token) (rest : List (List Char))
    (hne : pre.map Token.text ++ rest ≠ [])
    (hwf : ∀ t ∈ pre, t.wellFormed = true) (hrest : ∀ r ∈ rest, ',' ∉ r)
    (hf : fuelFor pre ≤ fuel) :
    parsePorts fuel (String.mk (joinTokens (pre.map Token.text ++ rest))) =
      parseLoop fuel rest (expandAll pre) := by
  have hsplit : Split (joinTokens (pre.map Token.text ++ rest)) ',' =
      pre.map Token.text ++ rest := by
    apply split_joinTokens _ hne
    intro x hx
    rcases List.mem_append.mp hx with hx | hx
    · obtain ⟨t, ht, rfl⟩ := List.mem_map.mp hx
      exact token_text_no_comma t (hwf t ht)
    · exact hrest x hx
  have hdata : (String.mk (joinTokens (pre.map Token.text ++ rest))).toList =
      joinTokens (pre.map Token.text ++ rest) := rfl
  rw [parsePorts, hdata, hsplit]
  rw [parseLoop_wellFormed fuel pre rest [] hwf
    (fun t ht => le_trans (fuelNeeded_le_fuelFor pre t ht) hf)]
  simp

theorem expandAll_length (toks : List Token) (hwf : ∀ t ∈ toks, t.wellFormed = true) :
    (expandAll toks).length = (toks.map Token.expandedLength).sum := by
  induction toks with
  | nil => rfl
  | cons t ts ih =>
    simp only [expandAll, List.length_append, List.map_cons, List.sum_cons,
      ih (fun x hx => hwf x (List.mem_cons_of_mem _ hx))]
    congr 1
    cases t with
    | single l => rfl
    | range a b =>
      simp only [Token.expand, Token.expandedLength, List.length_map, List.length_range]
      split <;> omega

/-! ## Lemmas for non-negativity and divergence -/

theorem minInt_le_maxInt : minInt ≤ maxInt := by decide

theorem incWrap_le_maxInt (i : Int) (h : i ≤ maxInt) : incWrap i ≤ maxInt := by
  unfold incWrap
  split
  · exact minInt_le_maxInt
  · omega

theorem rangeLoop_maxInt_none (fuel : Nat) : ∀ (i : Int) (ports : List Int),
    i ≤ maxInt → rangeLoop fuel i maxInt ports = none := by
  induction fuel with
  | zero => intro i ports _; rfl
  | succ f ih =>
    intro i ports hi
    rw [rangeLoop, if_pos hi]
    exact ih _ _ (incWrap_le_maxInt i hi)

theorem rangeLoop_nonneg (fuel : Nat) : ∀ (i e : Int) (ports res : List Int),
    0 ≤ i → e ≤ maxInt → (∀ p ∈ ports, 0 ≤ p) →
    rangeLoop fuel i e ports = some res → ∀ p ∈ res, 0 ≤ p := by
  induction fuel with
  | zero => intro i e ports res _ _ _ h; simp [rangeLoop] at h
  | succ f ih =>
    intro i e ports res hi he hp h
    rw [rangeLoop] at h
    split at h
    · rename_i hie
      have hp1 : ∀ p ∈ ports ++ [i], 0 ≤ p := by
        intro p hp0
        rcases List.mem_append.mp hp0 with hp0 | hp0
        · exact hp p hp0
        · simp at hp0; omega
      by_cases hmax : i = maxInt
      · have he1 : e = maxInt := by omega
        rw [he1, rangeLoop_maxInt_none f _ _ (incWrap_le_maxInt i (by omega))] at h
        simp at h
      · have hlt : i < maxInt := lt_of_le_of_ne (by omega) hmax
        rw [incWrap_of_lt i hlt] at h
        exact ih _ _ _ _ (by omega) he hp1 h
    · simp only [Option.some.injEq] at h
      subst h
      exact hp

theorem split_pieces_no_sep (s : List Char) (sep : Char) :
    ∀ p ∈ Split s sep, sep ∉ p := by
  induction s with
  | nil => simp [Split]
  | cons c cs ih =>
    intro p hp
    unfold Split at hp
    split at hp
    · rcases List.mem_cons.mp hp with rfl | hp
      · simp
      · exact ih p hp
    · rename_i hc
      split at hp
      · rename_i heq
        exact absurd heq (split_ne_nil cs sep)
      · rename_i t ts heq
        rcases List.mem_cons.mp hp with rfl | hp
        · have ht : sep ∉ t := ih t (by simp [heq])
          simp only [List.mem_cons, not_or]
          exact ⟨fun e => hc e.symm, ht⟩
        · exact ih p (by simp [heq, hp])

theorem atoi_bounds (r : List Char) (v : Int) (h : Atoi r = some v) :
    v ≤ maxInt ∧ ('-' ∉ r → 0 ≤ v) := by
  cases r with
  | nil => simp [Atoi] at h
  | cons c cs =>
    simp only [Atoi] at h
    split at h
    · rename_i hc
      subst hc
      refine ⟨?_, fun hno => absurd (List.mem_cons_self _ _) hno⟩
      split at h
      · simp at h
      · split at h
        · simp at h
        · split at h
          · simp at h
          · simp only [Option.some.injEq] at h
            subst h
            have : (0 : Int) ≤ maxInt := by decide
            omega
    · split at h
      · split at h
        · simp at h
        · split at h
          · simp at h
          · split at h
            · simp at h
            · simp only [Option.some.injEq] at h
              subst h
              exact ⟨by omega, fun _ => by omega⟩
      · split at h
        · simp at h
        · split at h
          · simp at h
          · simp only [Option.some.injEq] at h
            subst h
            exact ⟨by omega, fun _ => by omega⟩

theorem parseLoop_nonneg (fuel : Nat) (toks : List (List Char)) :
    ∀ (ports res : List Int) (err : Option PortError),
    (∀ p ∈ ports, 0 ≤ p) → parseLoop fuel toks ports = some (res, err) →
    ∀ p ∈ res, 0 ≤ p := by
  induction toks with
  | nil =>
    intro ports res err hp h
    simp only [parseLoop, Option.some.injEq, Prod.mk.injEq] at h
    rw [← h.1]; exact hp
  | cons r rest ih =>
    intro ports res err hp h
    rw [parseLoop] at h
    split at h
    · split at h
      · rename_i p0 p1 hs
        have hn0 : '-' ∉ p0 := split_pieces_no_sep r '-' p0 (by simp [hs])
        have hn1 : '-' ∉ p1 := split_pieces_no_sep r '-' p1 (by simp [hs])
        split at h
        · simp only [Option.some.injEq, Prod.mk.injEq] at h
          rw [← h.1]; simp
        · rename_i start hstart
          split at h
          · simp only [Option.some.injEq, Prod.mk.injEq] at h
            rw [← h.1]; simp
          · rename_i e he
            split at h
            · simp at h
            · rename_i ports1 hloop
              have hp1 := rangeLoop_nonneg fuel start e ports ports1
                ((atoi_bounds p0 start hstart).2 hn0) (atoi_bounds p1 e he).1 hp hloop
              exact ih ports1 res err hp1 h
      · simp only [Option.some.injEq, Prod.mk.injEq] at h
        rw [← h.1]; simp
    · rename_i hc
      have hno : '-' ∉ r := by
        rw [← contains_iff]; exact hc
      split at h
      · simp only [Option.some.injEq, Prod.mk.injEq] at h
        rw [← h.1]; simp
      · rename_i port hport
        refine ih _ res err ?_ h
        intro p hp0
        rcases List.mem_append.mp hp0 with hp0 | hp0
        · exact hp p hp0
        · simp at hp0
          rw [hp0]
          exact (atoi_bounds r port hport).2 hno

/-- The well-formed tokens are exactly the tokens made of integer literals that
the parser expands: on any other such token the token loop returns an error or
never returns. -/
theorem wellFormed_iff_expanded (t : Token) (hg : t.isGrammatical = true) :
    t.wellFormed = true ↔
      ∃ fuel ports, parseLoop fuel [t.text] [] = some (ports, none) := by
  constructor
  · intro hwf
    refine ⟨t.fuelNeeded, t.expand, ?_⟩
    rw [parseLoop_token _ t [] [] hwf (le_refl _)]
    simp [parseLoop]
  · rintro ⟨fuel, ports, h⟩
    cases t with
    | single l =>
      simp only [Token.isGrammatical] at hg
      have hno : Contains l '-' = false := by
        rw [← Bool.not_eq_true, contains_iff]; exact (literal_not_mem l hg).1
      simp only [Token.text, parseLoop, hno, atoi_literal l hg] at h
      simp only [Token.wellFormed, hg, Bool.true_and, decide_eq_true_eq]
      by_contra hbig
      simp [not_le.mp hbig] at h
    | range a b =>
      simp only [Token.isGrammatical, Bool.and_eq_true] at hg
      obtain ⟨ha, hb⟩ := hg
      have hc : Contains (a ++ '-' :: b) '-' = true := by
        rw [contains_iff]; simp
      have hs : Split (a ++ '-' :: b) '-' = [a, b] := by
        rw [split_append_sep _ _ _ (literal_not_mem a ha).1,
          split_of_not_mem _ _ (literal_not_mem b hb).1]
      simp only [Token.text, parseLoop, hc, hs, if_true, atoi_literal a ha,
        atoi_literal b hb] at h
      simp only [Token.wellFormed, ha, hb, Bool.true_and, Bool.and_eq_true,
        decide_eq_true_eq]
      by_cases hbiga : maxInt < (litVal a : Int)
      · simp [hbiga] at h
      · by_cases hbigb : maxInt < (litVal b : Int)
        · simp [hbiga, hbigb] at h
        · refine ⟨by omega, ?_⟩
          by_contra hnl
          have hbe : (litVal b : Int) = maxInt := by omega
          simp [hbiga, hbigb, hbe,
            rangeLoop_maxInt_none fuel (litVal a : Int) [] (by omega)] at h

/-! ## Lemmas on decimal text -/

theorem digitsVal_append (l : List Char) (c : Char) (n : Nat) :
    digitsVal (l ++ [c]) n = digitsVal l n * 10 + (c.toNat - '0'.toNat) := by
  induction l generalizing n with
  | nil => rfl
  | cons d ds ih => simp [digitsVal, ih]

theorem digitChar_spec (d : Nat) (h : d < 10) :
    (digitChar d).isDigit = true ∧ (digitChar d).toNat - '0'.toNat = d := by
  interval_cases d <;> decide

theorem decimalDigits_spec (fuel : Nat) : ∀ n, n < fuel →
    decimalDigits fuel n ≠ [] ∧ (decimalDigits fuel n).all Char.isDigit = true ∧
      digitsVal (decimalDigits fuel n) 0 = n := by
  induction fuel with
  | zero => intro n h; omega
  | succ f ih =>
    intro n h
    rw [decimalDigits]
    split
    · rename_i hlt
      have hd := digitChar_spec n hlt
      have hd2 : (digitChar n).toNat - 48 = n := hd.2
      simp [digitsVal, hd.1, hd2]
    · rename_i hge
      have hd := digitChar_spec (n % 10) (Nat.mod_lt _ (by norm_num))
      obtain ⟨_, h2, h3⟩ := ih (n / 10) (by omega)
      refine ⟨by simp, ?_, ?_⟩
      · simp [List.all_append, h2, hd.1]
      · rw [digitsVal_append, h3, hd.2]
        omega

theorem decimalText_literal (n : Nat) :
    isLiteral (decimalText n) = true ∧ litVal (decimalText n) = n := by
  obtain ⟨h1, h2, h3⟩ := decimalDigits_spec (n + 1) n (Nat.lt_succ_self n)
  refine ⟨?_, h3⟩
  simp only [isLiteral, Bool.and_eq_true, Bool.not_eq_true', List.isEmpty_eq_false]
  exact ⟨h1, h2⟩

/-! ## The scan engine: lemmas -/

theorem poolInv_init (cfg : Config) : PoolInv cfg (State.init cfg) := by
  simp [PoolInv, State.init, State.inFlight, MainPc.held]

theorem poolInv_stepMain (cfg : Config) (s s1 : State) (h : PoolInv cfg s)
    (hs : stepMain cfg s = some s1) : PoolInv cfg s1 := by
  obtain ⟨h1, h2⟩ := h
  unfold stepMain at hs
  split at hs
  · rename_i hpc
    split at hs
    · simp only [Option.some.injEq] at hs
      subst hs
      simp_all [PoolInv, State.inFlight, MainPc.held]
    · split at hs
      · simp only [Option.some.injEq] at hs
        subst hs
        simp_all [PoolInv, State.inFlight, MainPc.held]
        omega
      · simp at hs
  · rename_i hpc
    simp only [Option.some.injEq] at hs
    subst hs
    simp_all [PoolInv, State.inFlight, MainPc.held]
  · rename_i hpc
    simp only [Option.some.injEq] at hs
    subst hs
    simp_all [PoolInv, State.inFlight, MainPc.held]
  · rename_i hpc
    split at hs
    · simp only [Option.some.injEq] at hs
      subst hs
      simp_all [PoolInv, State.inFlight, MainPc.held]
    · simp at hs
  · rename_i hpc
    simp only [Option.some.injEq] at hs
    subst hs
    simp_all [PoolInv, State.inFlight, MainPc.held]
  · rename_i hpc
    simp only [Option.some.injEq] at hs
    subst hs
    simp_all [PoolInv, State.inFlight, MainPc.held]
  · rename_i hpc
    simp only [Option.some.injEq] at hs
    subst hs
    simp_all [PoolInv, State.inFlight, MainPc.held]
  · simp at hs

theorem poolInv_stepCollector (cfg : Config) (s s1 : State) (h : PoolInv cfg s)
    (hs : stepCollector s = some s1) : PoolInv cfg s1 := by
  unfold stepCollector at hs
  split at hs
  · split at hs
    · simp only [Option.some.injEq] at hs
      subst hs
      exact h
    · simp at hs
  · simp only [Option.some.injEq] at hs
    subst hs
    exact h
  · simp at hs

theorem poolInv_stepTask (cfg : Config) (s s1 : State) (i : Nat) (h : PoolInv cfg s)
    (hs : stepTask cfg s i = some s1) : PoolInv cfg s1 := by
  obtain ⟨h1, h2⟩ := h
  unfold stepTask at hs
  split at hs
  · simp at hs
  · rename_i t ht
    have hi : i < s.tasks.length := (List.getElem?_eq_some_iff.mp ht).1
    split at hs
    · simp only [Option.some.injEq] at hs
      subst hs
      simpa [PoolInv, State.inFlight] using ⟨h1, h2⟩
    · simp only [Option.some.injEq] at hs
      subst hs
      simpa [PoolInv, State.inFlight] using ⟨h1, h2⟩
    · split at hs
      · simp only [Option.some.injEq] at hs
        subst hs
        simpa [PoolInv, State.inFlight] using ⟨h1, h2⟩
      · simp at hs
    · simp only [Option.some.injEq] at hs
      subst hs
      simpa [PoolInv, State.inFlight] using ⟨h1, h2⟩
    · split at hs
      · simp only [Option.some.injEq] at hs
        subst hs
        simp only [PoolInv, State.inFlight, List.length_eraseIdx, hi, if_true] at h1 ⊢
        omega
      · simp only [State.inFlight] at h1
        omega

theorem poolInv_step (cfg : Config) (s s1 : State) (a : Action) (h : PoolInv cfg s)
    (hs : step cfg s a = some s1) : PoolInv cfg s1 := by
  cases a with
  | main => exact poolInv_stepMain cfg s s1 h hs
  | collector => exact poolInv_stepCollector cfg s s1 h hs
  | task i => exact poolInv_stepTask cfg s s1 i h hs

theorem poolInv_run (cfg : Config) (sched : List Action) : ∀ (s s1 : State),
    PoolInv cfg s → run cfg s sched = some s1 → PoolInv cfg s1 := by
  induction sched with
  | nil =>
    intro s s1 h hs
    simp only [run, Option.some.injEq] at hs
    subst hs
    exact h
  | cons a as ih =>
    intro s s1 h hs
    rw [run] at hs
    split at hs
    · simp at hs
    · rename_i s2 hstep
      exact ih s2 s1 (poolInv_step cfg s s2 a h hstep) hs

/-! ## The port-set parser: claims -/

/-- C1 (as stated, refuted): the tokens of "22,99999999999999999999" are integer
literals, yet `parsePorts` returns the invalid-port-number error for the second
one, whose value does not fit Go's `int`; and the range
"9223372036854775807-9223372036854775807" is two integer literals joined by one
`-`, yet `parsePorts` never returns on it, whatever the fuel: the loop counter
wraps around at the largest `int` and stays below the end for ever. -/
theorem parsePorts_literal_counterexample :
    (∀ t ∈ [Token.single "22".toList, Token.single "99999999999999999999".toList],
        t.isGrammatical = true) ∧
      (∀ fuel, parsePorts fuel "22,99999999999999999999" =
        some ([], some (.invalidPortNumber "99999999999999999999".toList))) ∧
      Token.isGrammatical
          (.range "9223372036854775807".toList "9223372036854775807".toList) = true ∧
      (∀ fuel, parsePorts fuel "9223372036854775807-9223372036854775807" = none) := by
  refine ⟨by decide, fun _ => rfl, by decide, fun fuel => ?_⟩
  have h : parsePorts fuel "9223372036854775807-9223372036854775807" =
      match rangeLoop fuel maxInt maxInt [] with
      | none => none
      | some ports1 => parseLoop fuel [] ports1 := rfl
  rw [h, rangeLoop_maxInt_none fuel maxInt [] (le_refl _)]

/-- C1 (amended): for every non-empty list of tokens, each a single integer
literal that fits Go's `int` or two such literals joined by one `-` with the end
below the largest `int`, `parsePorts` returns, on the comma-separated text of
the tokens and given enough fuel, no error and exactly the concatenation in
token order of the tokens' literal expansions. -/
theorem parsePorts_expands (toks : List Token) (hne : toks ≠ [])
    (hwf : ∀ t ∈ toks, t.wellFormed = true) :
    ∃ n, ∀ fuel, n ≤ fuel →
      parsePorts fuel (String.mk (joinTokens (toks.map Token.text))) =
        some (expandAll toks, none) := by
  refine ⟨fuelFor toks, fun fuel hf => ?_⟩
  have h := parsePorts_join fuel toks [] (by simpa using hne) hwf (by simp) hf
  simpa [parseLoop] using h

/-- C1 witness: "22,80,443,8000-8002" yields [22, 80, 443, 8000, 8001, 8002]. -/
theorem parsePorts_expands_witness :
    (∀ t ∈ [Token.single "22".toList, Token.single "80".toList, Token.single "443".toList,
        Token.range "8000".toList "8002".toList], t.wellFormed = true) ∧
      ∃ n, ∀ fuel, n ≤ fuel →
        parsePorts fuel "22,80,443,8000-8002" = some ([22, 80, 443, 8000, 8001, 8002], none) :=
  ⟨by decide,
    parsePorts_expands [Token.single "22".toList, Token.single "80".toList,
      Token.single "443".toList, Token.range "8000".toList "8002".toList]
      (by decide) (by decide)⟩

/-- C2 (as stated, refuted): "80,1-99999999999999999999" is made of valid tokens
(a single integer, and a range `a-b` with `a ≤ b`), yet `parsePorts` returns the
invalid-port-number error, the end of the range not fitting Go's `int`; and
"5,9223372036854775806-9223372036854775807" is a single integer and a range of
two ports, expanded length 3, yet `parsePorts` never returns on it. -/
theorem parsePorts_length_counterexample :
    (∀ t ∈ [Token.single "80".toList, Token.range "1".toList "99999999999999999999".toList],
        t.isGrammatical = true) ∧
      (∀ fuel, parsePorts fuel "80,1-99999999999999999999" =
        some ([], some (.invalidPortNumber "99999999999999999999".toList))) ∧
      (∀ t ∈ [Token.single "5".toList,
          Token.range "9223372036854775806".toList "9223372036854775807".toList],
        t.isGrammatical = true) ∧
      ([Token.single "5".toList,
          Token.range "9223372036854775806".toList "9223372036854775807".toList].map
        Token.expandedLength).sum = 3 ∧
      (∀ fuel, parsePorts fuel "5,9223372036854775806-9223372036854775807" = none) := by
  refine ⟨by decide, fun _ => rfl, by decide, by decide, fun fuel => ?_⟩
  have h : parsePorts fuel "5,9223372036854775806-9223372036854775807" =
      match rangeLoop fuel (maxInt - 1) maxInt [5] with
      | none => none
      | some ports1 => parseLoop fuel [] ports1 := rfl
  rw [h, rangeLoop_maxInt_none fuel _ _ (by decide)]

/-- C2 (amended): for every non-empty list of tokens, each a single integer
literal that fits Go's `int` or a range of two such literals whose end is below
the largest `int`, `parsePorts` returns without error, given enough fuel, a list
whose length is the sum of the tokens' expanded lengths: 1 for a single integer,
`b - a + 1` for a range with `a ≤ b`, and 0 for a range with `a > b`. -/
theorem parsePorts_length (toks : List Token) (hne : toks ≠ [])
    (hwf : ∀ t ∈ toks, t.wellFormed = true) :
    ∃ n, ∀ fuel, n ≤ fuel → ∃ ports,
      parsePorts fuel (String.mk (joinTokens (toks.map Token.text))) = some (ports, none) ∧
        ports.length = (toks.map Token.expandedLength).sum := by
  refine ⟨fuelFor toks, fun fuel hf => ⟨expandAll toks, ?_, expandAll_length toks hwf⟩⟩
  have h := parsePorts_join fuel toks [] (by simpa using hne) hwf (by simp) hf
  simpa [parseLoop] using h

/-- C2 witness: "7,9-3,10-12" has a reversed range in the middle; it is no error
and the result has 1 + 0 + 3 = 4 ports. -/
theorem parsePorts_length_witness :
    (∀ t ∈ [Token.single "7".toList, Token.range "9".toList "3".toList,
        Token.range "10".toList "12".toList], t.wellFormed = true) ∧
      ∃ n, ∀ fuel, n ≤ fuel → ∃ ports,
        parsePorts fuel "7,9-3,10-12" = some (ports, none) ∧ ports.length = 4 :=
  ⟨by decide,
    parsePorts_length [Token.single "7".toList, Token.range "9".toList "3".toList,
      Token.range "10".toList "12".toList] (by decide) (by decide)⟩

/-- C3: when the tokens before it are well formed (tokens the parser expands:
integer literals that fit Go's `int`, alone or as a range whose end is below the
largest `int`), a token that contains `-` and does not split into exactly two
parts on `-` makes `parsePorts` return, given enough fuel, the `nil` list and
the invalid-range error naming that token, whatever tokens follow. -/
theorem parsePorts_invalidRange (pre : List Token) (bad : List Char)
    (post : List (List Char)) (hpre : ∀ t ∈ pre, t.wellFormed = true)
    (hhyphen : Contains bad '-' = true) (hparts : (Split bad '-').length ≠ 2)
    (hbad : ',' ∉ bad) (hpost : ∀ r ∈ post, ',' ∉ r) :
    ∃ n, ∀ fuel, n ≤ fuel →
      parsePorts fuel (String.mk (joinTokens (pre.map Token.text ++ bad :: post))) =
        some ([], some (.invalidRange bad)) := by
  refine ⟨fuelFor pre, fun fuel hf => ?_⟩
  rw [parsePorts_join fuel pre (bad :: post) (by simp) hpre
    (by intro r hr; rcases List.mem_cons.mp hr with rfl | hr; exacts [hbad, hpost r hr]) hf]
  rw [parseLoop, if_pos hhyphen]
  split
  · rename_i p0 p1 hs
    rw [hs] at hparts
    exact absurd rfl hparts
  · rfl

/-- C3 witness: in "22,8000-8002,1-2-3,x" the ports 22 and 8000..8002 are
dropped and the error names "1-2-3". -/
theorem parsePorts_invalidRange_witness :
    (∀ t ∈ [Token.single "22".toList, Token.range "8000".toList "8002".toList],
        t.wellFormed = true) ∧
      Contains "1-2-3".toList '-' = true ∧ (Split "1-2-3".toList '-').length ≠ 2 ∧
      ∃ n, ∀ fuel, n ≤ fuel →
        parsePorts fuel "22,8000-8002,1-2-3,x" =
          some ([], some (.invalidRange "1-2-3".toList)) :=
  ⟨by decide, by decide, by decide,
    parsePorts_invalidRange
      [Token.single "22".toList, Token.range "8000".toList "8002".toList]
      "1-2-3".toList ["x".toList] (by decide) (by decide) (by decide) (by decide) (by decide)⟩

/-- C4: when the tokens before it are well formed (tokens the parser expands:
integer literals that fit Go's `int`, alone or as a range whose end is below the
largest `int`), a hyphen-free token that does not parse as an integer, or a
token that splits into exactly two parts on `-` one of which does not parse as
an integer, makes `parsePorts` return, given enough fuel, the `nil` list and the
invalid-port-number error naming the text that does not parse (the start of the
range when both sides are bad), whatever tokens follow. -/
theorem parsePorts_invalidPortNumber (pre : List Token) (bad text : List Char)
    (post : List (List Char)) (hpre : ∀ t ∈ pre, t.wellFormed = true)
    (hkind : (Contains bad '-' = false ∧ Atoi bad = none ∧ text = bad) ∨
      ∃ p0 p1, Split bad '-' = [p0, p1] ∧
        ((Atoi p0 = none ∧ text = p0) ∨ (Atoi p0 ≠ none ∧ Atoi p1 = none ∧ text = p1)))
    (hbad : ',' ∉ bad) (hpost : ∀ r ∈ post, ',' ∉ r) :
    ∃ n, ∀ fuel, n ≤ fuel →
      parsePorts fuel (String.mk (joinTokens (pre.map Token.text ++ bad :: post))) =
        some ([], some (.invalidPortNumber text)) := by
  refine ⟨fuelFor pre, fun fuel hf => ?_⟩
  rw [parsePorts_join fuel pre (bad :: post) (by simp) hpre
    (by intro r hr; rcases List.mem_cons.mp hr with rfl | hr; exacts [hbad, hpost r hr]) hf]
  rcases hkind with ⟨hc, ha, rfl⟩ | ⟨p0, p1, hs, hside⟩
  · simp [parseLoop, hc, ha]
  · have hc : Contains bad '-' = true := by
      by_contra hc
      have hno : '-' ∉ bad := by rw [← contains_iff]; exact hc
      rw [split_of_not_mem bad '-' hno] at hs
      simp at hs
    rcases hside with ⟨h0, rfl⟩ | ⟨h0, h1, rfl⟩
    · simp [parseLoop, hc, hs, h0]
    · obtain ⟨v, hv⟩ := Option.ne_none_iff_exists'.mp h0
      simp [parseLoop, hc, hs, hv, h1]

/-- C4 witness: in "22,8000-8002,x-y,443" both sides of "x-y" are bad and the
error names the start side "x". -/
theorem parsePorts_invalidPortNumber_witness :
    (∀ t ∈ [Token.single "22".toList, Token.range "8000".toList "8002".toList],
        t.wellFormed = true) ∧
      Split "x-y".toList '-' = ["x".toList, "y".toList] ∧
      Atoi "x".toList = none ∧ Atoi "y".toList = none ∧
      ∃ n, ∀ fuel, n ≤ fuel →
        parsePorts fuel "22,8000-8002,x-y,443" =
          some ([], some (.invalidPortNumber "x".toList)) :=
  ⟨by decide, by decide, by decide, by decide,
    parsePorts_invalidPortNumber
      [Token.single "22".toList, Token.range "8000".toList "8002".toList]
      "x-y".toList "x".toList ["443".toList] (by decide)
      (Or.inr ⟨"x".toList, "y".toList, by decide, Or.inl ⟨by decide, rfl⟩⟩)
      (by decide) (by decide)⟩

/-- C5 (as stated, refuted): -5 fits Go's `int` and its decimal text is "-5",
yet `parsePorts` does not yield [-5]: the `-` makes the token a range with an
empty start side, and the result is the `nil` list with the invalid-port-number
error naming the empty text. -/
theorem parsePorts_negative_counterexample :
    minInt ≤ -5 ∧ (-5 : Int) ≤ maxInt ∧ String.mk (intText (-5)) = "-5" ∧
      ∀ fuel, parsePorts fuel (String.mk (intText (-5))) =
        some ([], some (.invalidPortNumber [])) :=
  ⟨by decide, by decide, by decide, fun _ => rfl⟩

/-- C5 (amended): `parsePorts` enforces no upper bound on port values below the
limit of Go's `int`: for every integer `n` with `0 ≤ n ≤ maxInt`, also above
65535, the specification made of the decimal text of `n` is accepted and yields
exactly `[n]`. -/
theorem parsePorts_no_bounds (n : Int) (h0 : 0 ≤ n) (hmax : n ≤ maxInt) (fuel : Nat) :
    parsePorts fuel (String.mk (intText n)) = some ([n], none) := by
  obtain ⟨m, rfl⟩ := Int.eq_ofNat_of_zero_le h0
  have hlit := decimalText_literal m
  have hwf : ∀ t ∈ [Token.single (decimalText m)], t.wellFormed = true := by
    intro t ht
    simp only [List.mem_singleton] at ht
    subst ht
    simp only [Token.wellFormed, hlit.1, hlit.2, Bool.true_and, decide_eq_true_eq]
    exact hmax
  have h := parsePorts_join fuel [Token.single (decimalText m)] [] (by simp) hwf (by simp)
    (by simp [fuelFor, Token.fuelNeeded])
  simpa [parseLoop, expandAll, Token.expand, hlit.2, joinTokens, Token.text, intText] using h

/-- C5 witness: "70000" yields [70000]. -/
theorem parsePorts_no_bounds_witness :
    (0 : Int) ≤ 70000 ∧ (70000 : Int) ≤ maxInt ∧ String.mk (intText 70000) = "70000" ∧
      parsePorts 0 (String.mk (intText 70000)) = some ([70000], none) :=
  ⟨by decide, by decide, by decide, parsePorts_no_bounds 70000 (by decide) (by decide) 0⟩

/-- C10: whenever `parsePorts` succeeds, every port of the returned list is
non-negative. -/
theorem parsePorts_nonneg (fuel : Nat) (portsFlag : String) (ports : List Int)
    (h : parsePorts fuel portsFlag = some (ports, none)) : ∀ p ∈ ports, 0 ≤ p :=
  parseLoop_nonneg fuel _ [] ports none (by simp) h

/-- C10 witness: "0,3-5" succeeds with [0, 3, 4, 5]. -/
theorem parsePorts_nonneg_witness :
    parsePorts 9 "0,3-5" = some ([0, 3, 4, 5], none) ∧ ∀ p ∈ [(0 : Int), 3, 4, 5], 0 ≤ p :=
  ⟨by decide, parsePorts_nonneg 9 "0,3-5" [0, 3, 4, 5] (by decide)⟩

/-! ## The connection prober and the scan engine: claims -/

/-- C8: one call of `scanPort` on port `p` writes to the result stream at most
once and only `p`; it writes `p` exactly when the context was not cancelled at
the check and the dial succeeded; a cancelled call dials nothing; and every
call marks itself done on the wait group exactly once, as its last effect. -/
theorem scanPort_effects (cancelled dialOk verbose : Bool) (p : Int) :
    sentPorts (scanPort cancelled dialOk verbose p) =
        (if cancelled = false ∧ dialOk = true then [p] else []) ∧
      (cancelled = true → dialledPorts (scanPort cancelled dialOk verbose p) = []) ∧
      (scanPort cancelled dialOk verbose p).count .wgDone = 1 ∧
      (scanPort cancelled dialOk verbose p).getLast? = some .wgDone := by
  cases cancelled <;> cases dialOk <;> cases verbose <;>
    simp [scanPort, sentPorts, dialledPorts]

/-- C7: in every state the scan engine reaches, the probe tasks that have been
started and have not yet released their slot are at most `threads`; each of
them, and the main goroutine between acquiring a slot and spawning the task,
holds exactly one element of the pool buffer; the dispatcher cannot move while
the buffer is full; and the release step of a task frees exactly one slot and
ends the task. -/
theorem inFlight_le_threads (cfg : Config) (sched : List Action) (s : State)
    (h : run cfg (State.init cfg) sched = some s) :
    s.inFlight ≤ cfg.threads ∧
      s.inFlight + s.mainPc.held = s.pool ∧
      (s.mainPc = .dispatch → s.pending ≠ [] → s.pool = cfg.threads →
        stepMain cfg s = none) ∧
      (∀ i t s1, s.tasks[i]? = some t → t.pc = .release → stepTask cfg s i = some s1 →
        s1.pool + 1 = s.pool ∧ s1.inFlight + 1 = s.inFlight) := by
  obtain ⟨h1, h2⟩ := poolInv_run cfg sched _ s (poolInv_init cfg) h
  refine ⟨by omega, h1, ?_, ?_⟩
  · intro hpc hpend hfull
    unfold stepMain
    rw [hpc]
    cases hp : s.pending with
    | nil => exact absurd hp hpend
    | cons p rest => simp [hfull]
  · intro i t s1 ht hpc hstep
    have hi : i < s.tasks.length := (List.getElem?_eq_some_iff.mp ht).1
    have hpos : 0 < s.pool := by
      simp only [State.inFlight] at h1
      omega
    simp only [stepTask, ht, hpc, hpos, if_true, Option.some.injEq] at hstep
    subst hstep
    simp only [State.inFlight, List.length_eraseIdx, hi, if_true]
    omega

/-- C7 witness: with capacity 1 and ports 22, 80, once the first task is spawned
one task is in flight, which is the capacity, and the dispatcher is blocked. -/
theorem inFlight_le_threads_witness :
    run sampleConfig (State.init sampleConfig) [.main, .main, .main] = some sampleSaturated ∧
      sampleSaturated.inFlight ≤ sampleConfig.threads ∧
      stepMain sampleConfig sampleSaturated = none :=
  ⟨by decide,
    (inFlight_le_threads sampleConfig [.main, .main, .main] sampleSaturated (by decide)).1,
    by decide⟩

/-- C6 (the code departs from it): scanning the single port 80, which is open,
with capacity 1, the engine can print its final report with an empty
`openPorts`, the count 0, although exactly one requested port is open: the
collector has received 80 from the task and has not appended it yet when the
main goroutine, released by `wg.Wait()`, reads the collection. -/
theorem report_can_miss_open_port :
    run { ports := [80], threads := 1, isOpen := fun p => p == 80 }
        (State.init { ports := [80], threads := 1, isOpen := fun p => p == 80 })
        [.main, .main, .main, .task 0, .task 0, .task 0, .task 0, .main, .main,
          .main, .main, .main] =
      some { pending := [], mainPc := .done, cancelled := false, pool := 1,
             poolClosed := true, wg := 0, tasks := [⟨80, .release⟩],
             collector := .append 80, resultsClosed := true, openPorts := [],
             reported := some 0 } ∧
      ([80].filter fun p : Int => p == 80).length = 1 :=
  ⟨by decide, by decide⟩

/-- C9 (the code departs from it): scanning the open ports 22 and 80 with
capacity 2, the main goroutine can finish its report, having read `openPorts`
as [22], while the collector still holds the received port 80 before its append:
the read of `openPorts` is not ordered after the collector's last append, and
the collector has not yet observed the closure of the stream. -/
theorem report_before_last_append :
    run { ports := [22, 80], threads := 2, isOpen := fun _ => true }
        (State.init { ports := [22, 80], threads := 2, isOpen := fun _ => true })
        [.main, .main, .main, .main, .main, .main, .task 0, .task 0, .task 0,
          .collector, .task 1, .task 1, .task 1, .task 0, .task 1, .main, .main,
          .main, .main, .main] =
      some { pending := [], mainPc := .done, cancelled := false, pool := 2,
             poolClosed := true, wg := 0, tasks := [⟨22, .release⟩, ⟨80, .release⟩],
             collector := .append 80, resultsClosed := true, openPorts := [22],
             reported := some 1 } :=
  by decide

end PortScan
